import Mathlib

/-!
Shallow embedding of the settlement engine of
`backend/app/services/settlement_service.py` (CheckMate).

Monetary amounts are Python `Decimal` values; they are embedded as exact
rationals (`ℚ`).  The Python `dict` used for `net_balances` is embedded as an
insertion-ordered association list `List (Nat × ℚ)`: updating an existing key
keeps its position, a new key is appended, exactly as a Python dict iterates.
-/

namespace CheckMate

/-- `ExpenseParticipant` row: `(user_id, share_amount_base)`. -/
structure ExpenseParticipant where
  user_id : Nat
  share_amount_base : ℚ
deriving DecidableEq, Repr

/-- `Expense` row restricted to the fields `calculate_settlement` reads:
payer, amount in the trip's base currency, and its participant rows. -/
structure Expense where
  payer_id : Nat
  amount_base : ℚ
  participants : List ExpenseParticipant
deriving DecidableEq, Repr

/-- The `Transfer` class of `settlement_service.py`. -/
structure Transfer where
  from_user_id : Nat
  to_user_id : Nat
  amount : ℚ
deriving DecidableEq, Repr

/-- One `net_balances[uid] += amt` step on the dict (creating the key with
value `0` first when absent, as the `if uid not in net_balances` guard does). -/
def dictAdd (nb : List (Nat × ℚ)) (uid : Nat) (amt : ℚ) : List (Nat × ℚ) :=
  match nb with
  | [] => [(uid, amt)]
  | (k, v) :: rest =>
    if k = uid then (k, v + amt) :: rest
    else (k, v) :: dictAdd rest uid amt

/-- Body of the `for expense in expenses` loop of `calculate_settlement`:
credit the payer with `amount_base`, then debit each participant row by its
`share_amount_base`, in list order. -/
def processExpense (nb : List (Nat × ℚ)) (e : Expense) : List (Nat × ℚ) :=
  e.participants.foldl
    (fun acc p => dictAdd acc p.user_id (-p.share_amount_base))
    (dictAdd nb e.payer_id e.amount_base)

/-- The `net_balances` dict after the aggregation loop of
`calculate_settlement`, as an insertion-ordered association list; this is also
the `balances` list passed to `minimize_transfers` (dict iteration order). -/
def netBalances (expenses : List Expense) : List (Nat × ℚ) :=
  expenses.foldl processExpense []

/-- Sum of the values of a balance dict (`sum(net_balances.values())`). -/
def sumValues (nb : List (Nat × ℚ)) : ℚ :=
  (nb.map Prod.snd).sum

/-- Sum of the participant shares of one expense. -/
def shareTotal (e : Expense) : ℚ :=
  (e.participants.map ExpenseParticipant.share_amount_base).sum

theorem sumValues_dictAdd (nb : List (Nat × ℚ)) (uid : Nat) (amt : ℚ) :
    sumValues (dictAdd nb uid amt) = sumValues nb + amt := by
  induction nb with
  | nil => simp [dictAdd, sumValues]
  | cons h t ih =>
    obtain ⟨k, v⟩ := h
    by_cases hk : k = uid <;> simp [dictAdd, hk, sumValues] at * <;> linarith

theorem sumValues_shareFold (l : List ExpenseParticipant) (nb : List (Nat × ℚ)) :
    sumValues (l.foldl (fun acc p => dictAdd acc p.user_id (-p.share_amount_base)) nb)
      = sumValues nb - (l.map ExpenseParticipant.share_amount_base).sum := by
  induction l generalizing nb with
  | nil => simp
  | cons p t ih =>
    simp only [List.foldl_cons, List.map_cons, List.sum_cons, ih, sumValues_dictAdd]
    ring

theorem sumValues_processExpense (nb : List (Nat × ℚ)) (e : Expense) :
    sumValues (processExpense nb e) = sumValues nb + e.amount_base - shareTotal e := by
  simp [processExpense, sumValues_shareFold, sumValues_dictAdd, shareTotal]

theorem sumValues_netBalances_aux (es : List Expense) (nb : List (Nat × ℚ))
    (h : ∀ e ∈ es, shareTotal e = e.amount_base) :
    sumValues (es.foldl processExpense nb) = sumValues nb := by
  induction es generalizing nb with
  | nil => simp
  | cons e t ih =>
    have he : shareTotal e = e.amount_base := h e (by simp)
    have ht : ∀ e' ∈ t, shareTotal e' = e'.amount_base := fun e' h' => h e' (by simp [h'])
    simp only [List.foldl_cons, ih _ ht, sumValues_processExpense, he]
    ring

/-- **C1.** Zero-sum invariant: if every expense's participant shares sum
exactly to its `amount_base`, then the net balances produced by the
aggregation loop of `calculate_settlement` sum to exactly zero. -/
theorem zero_sum_invariant (expenses : List Expense)
    (h : ∀ e ∈ expenses, shareTotal e = e.amount_base) :
    sumValues (netBalances expenses) = 0 := by
  simpa [sumValues, netBalances] using sumValues_netBalances_aux expenses [] h

/-- Witness for C1 on a concrete two-expense ledger. -/
theorem zero_sum_invariant_witness :
    (∀ e ∈ [Expense.mk 1 300 [⟨1, 100⟩, ⟨2, 100⟩, ⟨3, 100⟩],
            Expense.mk 2 150 [⟨2, 75⟩, ⟨3, 75⟩]], shareTotal e = e.amount_base) ∧
    sumValues (netBalances [Expense.mk 1 300 [⟨1, 100⟩, ⟨2, 100⟩, ⟨3, 100⟩],
            Expense.mk 2 150 [⟨2, 75⟩, ⟨3, 75⟩]]) = 0 :=
  ⟨by norm_num [shareTotal], zero_sum_invariant _ (by norm_num [shareTotal])⟩

/-- Python's `list.sort(key=lambda x: x[1], reverse=True)`: the stable
descending sort by amount.  A stable sort is uniquely determined by its
(total) comparison and stability, so insertion sort with `b.2 ≤ a.2`
computes exactly the list Python produces. -/
def sortDescByAmount (l : List (Nat × ℚ)) : List (Nat × ℚ) :=
  List.insertionSort (fun a b => b.2 ≤ a.2) l

/-- The `while cred_idx < len(creditors) and debt_idx < len(debtors)` loop of
`minimize_transfers`.  Advancing an index is embedded as dropping the head of
the corresponding list; updating `creditors[cred_idx]` in place keeps the
updated pair at the head.  Every iteration removes at least one entry from
the two lists combined (in the transfer branch `transfer_amount` equals
`cred_amount` or `debt_amount`, so at least one remainder is zero), hence
fuel `|creditors| + |debtors|` always suffices; `greedyLoopFuel_irrel`
below proves the result is the same for any sufficient fuel. -/
def greedyLoopFuel : Nat → List (Nat × ℚ) → List (Nat × ℚ) → List Transfer
  | _, [], _ => []
  | _, _ :: _, [] => []
  | 0, _ :: _, _ :: _ => []
  | fuel + 1, (creditor_id, cred_amount) :: cs, (debtor_id, debt_amount) :: ds =>
    if cred_amount = 0 then
      greedyLoopFuel fuel cs ((debtor_id, debt_amount) :: ds)
    else if debt_amount = 0 then
      greedyLoopFuel fuel ((creditor_id, cred_amount) :: cs) ds
    else
      let transfer_amount := min cred_amount debt_amount
      Transfer.mk debtor_id creditor_id transfer_amount ::
        greedyLoopFuel fuel
          (if cred_amount - transfer_amount = 0 then cs
           else (creditor_id, cred_amount - transfer_amount) :: cs)
          (if debt_amount - transfer_amount = 0 then ds
           else (debtor_id, debt_amount - transfer_amount) :: ds)

/-- `minimize_transfers` of `settlement_service.py`: split the balances into
creditors (`bal > 0`) and debtors (`bal < 0`, negated), sort both descending
by amount, then run the greedy two-pointer loop. -/
def minimize_transfers (balances : List (Nat × ℚ)) : List Transfer :=
  let creditors := balances.filter (fun p => decide (0 < p.2))
  let debtors := (balances.filter (fun p => decide (p.2 < 0))).map (fun p => (p.1, -p.2))
  let creditorsSorted := sortDescByAmount creditors
  let debtorsSorted := sortDescByAmount debtors
  greedyLoopFuel (creditorsSorted.length + debtorsSorted.length) creditorsSorted debtorsSorted

theorem greedyLoopFuel_nil_left (fuel : Nat) (ds : List (Nat × ℚ)) :
    greedyLoopFuel fuel [] ds = [] := by
  cases fuel <;> rfl

theorem greedyLoopFuel_nil_right (fuel : Nat) (cs : List (Nat × ℚ)) :
    greedyLoopFuel fuel cs [] = [] := by
  cases fuel <;> cases cs <;> rfl

theorem greedyLoopFuel_irrel (fuel fuel' : Nat) (cs ds : List (Nat × ℚ))
    (h : cs.length + ds.length ≤ fuel) (h' : cs.length + ds.length ≤ fuel') :
    greedyLoopFuel fuel cs ds = greedyLoopFuel fuel' cs ds := by
  induction fuel generalizing fuel' cs ds with
  | zero =>
    match cs, ds with
    | [], ds => rw [greedyLoopFuel_nil_left, greedyLoopFuel_nil_left]
    | c :: cs, [] => rw [greedyLoopFuel_nil_right, greedyLoopFuel_nil_right]
    | c :: cs, d :: ds => simp at h
  | succ fuel ih =>
    match cs, ds with
    | [], ds => rw [greedyLoopFuel_nil_left, greedyLoopFuel_nil_left]
    | c :: cs, [] => rw [greedyLoopFuel_nil_right, greedyLoopFuel_nil_right]
    | (cid, ca) :: cs, (did, da) :: ds =>
      obtain ⟨f', rfl⟩ : ∃ f', fuel' = f' + 1 := by
        cases fuel' with
        | zero => simp at h'
        | succ f' => exact ⟨f', rfl⟩
      simp only [List.length_cons] at h h'
      simp only [greedyLoopFuel]
      by_cases hca : ca = 0
      · simp only [if_pos hca]
        exact ih f' cs ((did, da) :: ds) (by simp only [List.length_cons]; omega)
          (by simp only [List.length_cons]; omega)
      · simp only [if_neg hca]
        by_cases hda : da = 0
        · simp only [if_pos hda]
          exact ih f' ((cid, ca) :: cs) ds (by simp only [List.length_cons]; omega)
            (by simp only [List.length_cons]; omega)
        · simp only [if_neg hda]
          have hlen : (if ca - min ca da = 0 then cs else (cid, ca - min ca da) :: cs).length
              + (if da - min ca da = 0 then ds else (did, da - min ca da) :: ds).length
              ≤ cs.length + ds.length + 1 := by
            rcases min_choice ca da with hm | hm <;> rw [hm] <;> simp only [sub_self] <;>
              simp <;> split <;> simp [List.length_cons] <;> omega
          refine congrArg (List.cons _) (ih f' _ _ ?_ ?_) <;> omega

/-- The concrete three-user ledger of the spec's scenario: user ids A=1, B=2,
C=3; expense 1: A pays 300 split 100/100/100 over A, B, C; expense 2: B pays
150 split 75/75 over B, C. -/
def scenarioLedger : List Expense :=
  [Expense.mk 1 300 [⟨1, 100⟩, ⟨2, 100⟩, ⟨3, 100⟩],
   Expense.mk 2 150 [⟨2, 75⟩, ⟨3, 75⟩]]

/-- **C4.** Concrete three-user scenario: the aggregation computes net
balances A = +200, B = −25, C = −175, and `minimize_transfers` produces
exactly the ordered transfer list `[C→A: 175, B→A: 25]`. -/
theorem concrete_three_user_scenario :
    netBalances scenarioLedger = [(1, 200), (2, -25), (3, -175)] ∧
    minimize_transfers (netBalances scenarioLedger) =
      [Transfer.mk 3 1 175, Transfer.mk 2 1 25] := by
  have h : netBalances scenarioLedger = [(1, 200), (2, -25), (3, -175)] := by
    norm_num [scenarioLedger, netBalances, processExpense, dictAdd]
  refine ⟨h, ?_⟩
  rw [h]
  norm_num [minimize_transfers, sortDescByAmount, List.insertionSort, List.orderedInsert,
    greedyLoopFuel, min_def]

/-- One entry of the `"transfers"` list in `calculation_data` (lines 67-76):
user ids, usernames resolved through `user_map.get(..., "")`, and the amount. -/
structure TransferOut where
  from_user_id : Nat
  from_username : String
  to_user_id : Nat
  to_username : String
  amount_base : ℚ
deriving DecidableEq, Repr

/-- The `calculation_data` JSON object built by `calculate_settlement`
(lines 65-79).  The Python code converts amounts with `float(...)` at this
point; the embedding keeps them exact. -/
structure CalcData where
  net_balances : List (String × ℚ)
  transfers : List TransferOut
  total_expenses_base : ℚ
  participant_count : Nat
deriving DecidableEq, Repr

/-- `float(sum(exp.amount_base for exp in expenses))` (line 77), kept exact. -/
def totalExpensesBase (es : List Expense) : ℚ :=
  (es.map Expense.amount_base).sum

/-- The `user_map` built in lines 58-62: for each user id in the balances
dict (in order), resolve the username; ids the resolver cannot find are
simply skipped. -/
def buildUserMap (resolver : Nat → Option String) (nb : List (Nat × ℚ)) :
    List (Nat × String) :=
  nb.filterMap (fun p => (resolver p.1).map (fun name => (p.1, name)))

/-- The `"net_balances"` dict comprehension of line 66: walk the balances in
dict order evaluating `user_map[uid]`; the first id absent from `user_map`
raises `KeyError(uid)`, embedded as `Except.error uid`. -/
def lookupAll (userMap : List (Nat × String)) :
    List (Nat × ℚ) → Except Nat (List (String × ℚ))
  | [] => .ok []
  | (uid, bal) :: rest =>
    match userMap.lookup uid with
    | none => .error uid
    | some name => (lookupAll userMap rest).map (fun l => (name, bal) :: l)

/-- `calculation_data` assembly (lines 65-79).  Python evaluates the dict
literal's values in order, so the `"net_balances"` comprehension runs (and
may raise) before the `"transfers"` list is ever built; on success the
transfer entries resolve usernames with `user_map.get(uid, "")`. -/
def buildCalculationData (expenses : List Expense) (userMap : List (Nat × String)) :
    Except Nat CalcData :=
  match lookupAll userMap (netBalances expenses) with
  | .error u => .error u
  | .ok nb =>
    .ok { net_balances := nb
          transfers := (minimize_transfers (netBalances expenses)).map (fun t =>
            { from_user_id := t.from_user_id
              from_username := (userMap.lookup t.from_user_id).getD ""
              to_user_id := t.to_user_id
              to_username := (userMap.lookup t.to_user_id).getD ""
              amount_base := t.amount })
          total_expenses_base := totalExpensesBase expenses
          participant_count := (netBalances expenses).length }

/-- The in-memory computation of `calculate_settlement` (lines 27-79):
aggregate balances, minimize transfers, resolve usernames, assemble
`calculation_data`.  The username resolver stands for the
`db.query(User)...first()` lookups. -/
def calculate_settlement_core (expenses : List Expense)
    (resolver : Nat → Option String) : Except Nat CalcData :=
  buildCalculationData expenses (buildUserMap resolver (netBalances expenses))

/-- **C5.** Empty ledger: with zero expenses `calculate_settlement`'s
computation does not error and yields empty `net_balances`, an empty
transfer list, a zero expense total and participant count 0 — for every
username resolver. -/
theorem empty_ledger_result (resolver : Nat → Option String) :
    calculate_settlement_core [] resolver =
      .ok { net_balances := []
            transfers := []
            total_expenses_base := 0
            participant_count := 0 } := rfl

/-- Sum of the amounts of a list of transfers. -/
def sumAmounts (ts : List Transfer) : ℚ :=
  (ts.map Transfer.amount).sum

/-- Sum of the values carried by user `u`'s entries of a balance list. -/
def entrySum (l : List (Nat × ℚ)) (u : Nat) : ℚ :=
  ((l.filter (fun p => p.1 == u)).map Prod.snd).sum

/-- Total amount user `u` receives over a list of transfers. -/
def recvTotal (ts : List Transfer) (u : Nat) : ℚ :=
  ((ts.filter (fun t => t.to_user_id == u)).map Transfer.amount).sum

/-- Total amount user `u` pays over a list of transfers. -/
def payTotal (ts : List Transfer) (u : Nat) : ℚ :=
  ((ts.filter (fun t => t.from_user_id == u)).map Transfer.amount).sum

/-- The creditors of `minimize_transfers` (line 132): entries with `bal > 0`. -/
def creditorsOf (balances : List (Nat × ℚ)) : List (Nat × ℚ) :=
  balances.filter (fun p => decide (0 < p.2))

/-- The debtors of `minimize_transfers` (line 133): entries with `bal < 0`,
stored as positive amounts. -/
def debtorsOf (balances : List (Nat × ℚ)) : List (Nat × ℚ) :=
  (balances.filter (fun p => decide (p.2 < 0))).map (fun p => (p.1, -p.2))

theorem minimize_transfers_eq (balances : List (Nat × ℚ)) :
    minimize_transfers balances =
      greedyLoopFuel
        ((sortDescByAmount (creditorsOf balances)).length
          + (sortDescByAmount (debtorsOf balances)).length)
        (sortDescByAmount (creditorsOf balances))
        (sortDescByAmount (debtorsOf balances)) := rfl

theorem entrySum_cons (k : Nat) (v : ℚ) (l : List (Nat × ℚ)) (u : Nat) :
    entrySum ((k, v) :: l) u = (if k = u then v else 0) + entrySum l u := by
  by_cases h : k = u <;> simp [entrySum, List.filter_cons, h]

theorem recvTotal_cons (t : Transfer) (ts : List Transfer) (u : Nat) :
    recvTotal (t :: ts) u
      = (if t.to_user_id = u then t.amount else 0) + recvTotal ts u := by
  by_cases h : t.to_user_id = u <;> simp [recvTotal, List.filter_cons, h]

theorem payTotal_cons (t : Transfer) (ts : List Transfer) (u : Nat) :
    payTotal (t :: ts) u
      = (if t.from_user_id = u then t.amount else 0) + payTotal ts u := by
  by_cases h : t.from_user_id = u <;> simp [payTotal, List.filter_cons, h]

/-- Length accounting for the transfer branch of the greedy loop: after one
transfer the two remaining lists hold at most one more entry than the two
tails combined. -/
theorem greedy_branch_length (cid did : Nat) (ca da : ℚ) (cs ds : List (Nat × ℚ)) :
    (if ca - min ca da = 0 then cs else (cid, ca - min ca da) :: cs).length
      + (if da - min ca da = 0 then ds else (did, da - min ca da) :: ds).length
      ≤ cs.length + ds.length + 1 := by
  rcases min_choice ca da with hm | hm <;> rw [hm] <;> simp only [sub_self] <;>
    simp <;> split <;> simp [List.length_cons] <;> omega

theorem greedyLoopFuel_length (fuel : Nat) (cs ds : List (Nat × ℚ)) :
    (greedyLoopFuel fuel cs ds).length ≤ cs.length + ds.length - 1 := by
  induction fuel generalizing cs ds with
  | zero =>
    match cs, ds with
    | [], ds => simp [greedyLoopFuel_nil_left]
    | c :: cs, [] => simp [greedyLoopFuel_nil_right]
    | c :: cs, d :: ds => simp [greedyLoopFuel]
  | succ fuel ih =>
    match cs, ds with
    | [], ds => simp [greedyLoopFuel_nil_left]
    | c :: cs, [] => simp [greedyLoopFuel_nil_right]
    | (cid, ca) :: cs, (did, da) :: ds =>
      simp only [greedyLoopFuel]
      by_cases hca : ca = 0
      · simp only [if_pos hca]
        have := ih cs ((did, da) :: ds)
        simp only [List.length_cons] at *
        omega
      · simp only [if_neg hca]
        by_cases hda : da = 0
        · simp only [if_pos hda]
          have := ih ((cid, ca) :: cs) ds
          simp only [List.length_cons] at *
          omega
        · simp only [if_neg hda]
          have h1 := greedy_branch_length cid did ca da cs ds
          have h2 := ih (if ca - min ca da = 0 then cs else (cid, ca - min ca da) :: cs)
            (if da - min ca da = 0 then ds else (did, da - min ca da) :: ds)
          simp only [List.length_cons] at *
          omega

/-- **C3.** Transfer count bound: for every balance list, the number of
transfers returned by `minimize_transfers` is at most
`max 0 (creditor_count + debtor_count - 1)`. -/
theorem transfer_count_bound (balances : List (Nat × ℚ)) :
    ((minimize_transfers balances).length : ℤ) ≤
      max 0 (((creditorsOf balances).length : ℤ)
        + ((debtorsOf balances).length : ℤ) - 1) := by
  have h := greedyLoopFuel_length
    ((sortDescByAmount (creditorsOf balances)).length
      + (sortDescByAmount (debtorsOf balances)).length)
    (sortDescByAmount (creditorsOf balances))
    (sortDescByAmount (debtorsOf balances))
  rw [← minimize_transfers_eq] at h
  have hc : (sortDescByAmount (creditorsOf balances)).length
      = (creditorsOf balances).length :=
    (List.perm_insertionSort _ _).length_eq
  have hd : (sortDescByAmount (debtorsOf balances)).length
      = (debtorsOf balances).length :=
    (List.perm_insertionSort _ _).length_eq
  rw [hc, hd] at h
  omega

theorem sumValues_cons (k : Nat) (v : ℚ) (l : List (Nat × ℚ)) :
    sumValues ((k, v) :: l) = v + sumValues l := by
  simp [sumValues]

theorem sumAmounts_cons (t : Transfer) (ts : List Transfer) :
    sumAmounts (t :: ts) = t.amount + sumAmounts ts := by
  simp [sumAmounts]

theorem sumValues_nonneg (l : List (Nat × ℚ)) (h : ∀ p ∈ l, 0 ≤ p.2) :
    0 ≤ sumValues l := by
  refine List.sum_nonneg ?_
  intro x hx
  obtain ⟨p, hp, rfl⟩ := List.mem_map.mp hx
  exact h p hp

theorem all_zero_of_sum_zero (l : List (Nat × ℚ)) (h : ∀ p ∈ l, 0 ≤ p.2)
    (hz : sumValues l = 0) : ∀ p ∈ l, p.2 = 0 := by
  induction l with
  | nil => simp
  | cons q t ih =>
    rw [sumValues_cons] at hz
    have h1 : 0 ≤ q.2 := h q (List.mem_cons_self q t)
    have h2 : ∀ p ∈ t, 0 ≤ p.2 := fun p hp => h p (List.mem_cons_of_mem q hp)
    have h3 : 0 ≤ sumValues t := sumValues_nonneg t h2
    intro p hp
    rcases List.mem_cons.mp hp with rfl | hp
    · linarith
    · exact ih h2 (by linarith) p hp

theorem entrySum_eq_zero (l : List (Nat × ℚ)) (h : ∀ p ∈ l, 0 ≤ p.2)
    (hz : sumValues l = 0) (u : Nat) : entrySum l u = 0 := by
  refine List.sum_eq_zero ?_
  intro x hx
  obtain ⟨p, hp, rfl⟩ := List.mem_map.mp hx
  exact all_zero_of_sum_zero l h hz p (List.mem_of_mem_filter hp)

theorem sumValues_ifCons (uid : Nat) (a : ℚ) (l : List (Nat × ℚ)) :
    sumValues (if a = 0 then l else (uid, a) :: l) = sumValues l + a := by
  split
  · simp [*]
  · rw [sumValues_cons]; ring

theorem entrySum_ifCons (uid : Nat) (a : ℚ) (l : List (Nat × ℚ)) (u : Nat) :
    entrySum (if a = 0 then l else (uid, a) :: l) u
      = entrySum l u + (if uid = u then a else 0) := by
  split
  · rename_i h; split <;> simp [h]
  · rw [entrySum_cons]; ring

theorem greedy_branch_nonneg (uid : Nat) (a : ℚ) (l : List (Nat × ℚ))
    (hl : ∀ p ∈ l, 0 ≤ p.2) (ha : 0 ≤ a) :
    ∀ p ∈ (if a = 0 then l else (uid, a) :: l), 0 ≤ p.2 := by
  split
  · exact hl
  · intro p hp
    rcases List.mem_cons.mp hp with rfl | hp
    · exact ha
    · exact hl p hp

/-- Sum of the amounts transferred by the greedy loop: the smaller of the two
sides' totals is moved in full. -/
theorem greedyLoopFuel_sum (fuel : Nat) (cs ds : List (Nat × ℚ))
    (hc : ∀ p ∈ cs, 0 ≤ p.2) (hd : ∀ p ∈ ds, 0 ≤ p.2)
    (hfuel : cs.length + ds.length ≤ fuel) :
    sumAmounts (greedyLoopFuel fuel cs ds) = min (sumValues cs) (sumValues ds) := by
  induction fuel generalizing cs ds with
  | zero =>
    match cs, ds with
    | [], ds =>
      rw [greedyLoopFuel_nil_left, show sumValues ([] : List (Nat × ℚ)) = 0 from rfl,
        min_eq_left (sumValues_nonneg ds hd)]
      rfl
    | c :: cs, [] =>
      rw [greedyLoopFuel_nil_right, show sumValues ([] : List (Nat × ℚ)) = 0 from rfl,
        min_eq_right (sumValues_nonneg _ hc)]
      rfl
    | c :: cs, d :: ds => simp at hfuel
  | succ fuel ih =>
    match cs, ds with
    | [], ds =>
      rw [greedyLoopFuel_nil_left, show sumValues ([] : List (Nat × ℚ)) = 0 from rfl,
        min_eq_left (sumValues_nonneg ds hd)]
      rfl
    | c :: cs, [] =>
      rw [greedyLoopFuel_nil_right, show sumValues ([] : List (Nat × ℚ)) = 0 from rfl,
        min_eq_right (sumValues_nonneg _ hc)]
      rfl
    | (cid, ca) :: cs, (did, da) :: ds =>
      have hcacs : 0 ≤ ca := hc (cid, ca) (List.mem_cons_self _ _)
      have hdads : 0 ≤ da := hd (did, da) (List.mem_cons_self _ _)
      have hc' : ∀ p ∈ cs, 0 ≤ p.2 := fun p hp => hc p (List.mem_cons_of_mem _ hp)
      have hd' : ∀ p ∈ ds, 0 ≤ p.2 := fun p hp => hd p (List.mem_cons_of_mem _ hp)
      simp only [List.length_cons] at hfuel
      simp only [greedyLoopFuel]
      by_cases hca : ca = 0
      · rw [if_pos hca]
        rw [ih cs ((did, da) :: ds) hc' hd (by simp only [List.length_cons]; omega)]
        rw [sumValues_cons cid ca cs, hca, zero_add]
      · rw [if_neg hca]
        by_cases hda : da = 0
        · rw [if_pos hda]
          rw [ih ((cid, ca) :: cs) ds hc hd' (by simp only [List.length_cons]; omega)]
          rw [sumValues_cons did da ds, hda, zero_add]
        · rw [if_neg hda]
          rw [sumAmounts_cons]
          rw [ih _ _
            (greedy_branch_nonneg cid (ca - min ca da) cs hc'
              (sub_nonneg.mpr (min_le_left ca da)))
            (greedy_branch_nonneg did (da - min ca da) ds hd'
              (sub_nonneg.mpr (min_le_right ca da)))
            (by have := greedy_branch_length cid did ca da cs ds; omega)]
          rw [sumValues_ifCons, sumValues_ifCons, sumValues_cons, sumValues_cons]
          rw [show sumValues cs + (ca - min ca da) = (ca + sumValues cs) - min ca da from by ring,
            show sumValues ds + (da - min ca da) = (da + sumValues ds) - min ca da from by ring,
            min_sub_sub_right]
          ring

/-- Per-user accounting of the greedy loop: when the two sides' totals agree,
each user receives exactly the sum of their creditor entries and pays exactly
the sum of their debtor entries. -/
theorem greedyLoopFuel_entry (fuel : Nat) (cs ds : List (Nat × ℚ))
    (hc : ∀ p ∈ cs, 0 ≤ p.2) (hd : ∀ p ∈ ds, 0 ≤ p.2)
    (hs : sumValues cs = sumValues ds)
    (hfuel : cs.length + ds.length ≤ fuel) (u : Nat) :
    recvTotal (greedyLoopFuel fuel cs ds) u = entrySum cs u ∧
    payTotal (greedyLoopFuel fuel cs ds) u = entrySum ds u := by
  induction fuel generalizing cs ds with
  | zero =>
    match cs, ds with
    | [], ds =>
      rw [greedyLoopFuel_nil_left]
      exact ⟨rfl, (entrySum_eq_zero ds hd (by rw [← hs]; rfl) u).symm⟩
    | c :: cs, [] =>
      rw [greedyLoopFuel_nil_right]
      exact ⟨(entrySum_eq_zero _ hc (by rw [hs]; rfl) u).symm, rfl⟩
    | c :: cs, d :: ds => simp at hfuel
  | succ fuel ih =>
    match cs, ds with
    | [], ds =>
      rw [greedyLoopFuel_nil_left]
      exact ⟨rfl, (entrySum_eq_zero ds hd (by rw [← hs]; rfl) u).symm⟩
    | c :: cs, [] =>
      rw [greedyLoopFuel_nil_right]
      exact ⟨(entrySum_eq_zero _ hc (by rw [hs]; rfl) u).symm, rfl⟩
    | (cid, ca) :: cs, (did, da) :: ds =>
      have hcacs : 0 ≤ ca := hc (cid, ca) (List.mem_cons_self _ _)
      have hdads : 0 ≤ da := hd (did, da) (List.mem_cons_self _ _)
      have hc' : ∀ p ∈ cs, 0 ≤ p.2 := fun p hp => hc p (List.mem_cons_of_mem _ hp)
      have hd' : ∀ p ∈ ds, 0 ≤ p.2 := fun p hp => hd p (List.mem_cons_of_mem _ hp)
      simp only [List.length_cons] at hfuel
      simp only [greedyLoopFuel]
      by_cases hca : ca = 0
      · rw [if_pos hca]
        have hs' : sumValues cs = sumValues ((did, da) :: ds) := by
          rw [sumValues_cons, hca] at hs; linarith
        obtain ⟨h1, h2⟩ := ih cs ((did, da) :: ds) hc' hd hs'
          (by simp only [List.length_cons]; omega)
        refine ⟨?_, h2⟩
        rw [h1, entrySum_cons, hca]
        split <;> ring
      · rw [if_neg hca]
        by_cases hda : da = 0
        · rw [if_pos hda]
          have hs' : sumValues ((cid, ca) :: cs) = sumValues ds := by
            rw [sumValues_cons did da ds, hda] at hs; linarith
          obtain ⟨h1, h2⟩ := ih ((cid, ca) :: cs) ds hc hd' hs'
            (by simp only [List.length_cons]; omega)
          refine ⟨h1, ?_⟩
          rw [h2, entrySum_cons, hda]
          split <;> ring
        · rw [if_neg hda]
          have hs' : sumValues (if ca - min ca da = 0 then cs
                else (cid, ca - min ca da) :: cs)
              = sumValues (if da - min ca da = 0 then ds
                else (did, da - min ca da) :: ds) := by
            rw [sumValues_ifCons, sumValues_ifCons]
            rw [sumValues_cons, sumValues_cons] at hs
            linarith
          obtain ⟨h1, h2⟩ := ih _ _
            (greedy_branch_nonneg cid (ca - min ca da) cs hc'
              (sub_nonneg.mpr (min_le_left ca da)))
            (greedy_branch_nonneg did (da - min ca da) ds hd'
              (sub_nonneg.mpr (min_le_right ca da)))
            hs'
            (by have := greedy_branch_length cid did ca da cs ds; omega)
          constructor
          · rw [recvTotal_cons, h1, entrySum_ifCons, entrySum_cons]
            split <;> ring
          · rw [payTotal_cons, h2, entrySum_ifCons, entrySum_cons]
            split <;> ring

/-- `entrySum` is invariant under permutation. -/
theorem entrySum_perm {l l' : List (Nat × ℚ)} (h : l.Perm l') (u : Nat) :
    entrySum l u = entrySum l' u :=
  ((h.filter _).map _).sum_eq

/-- `sumValues` is invariant under permutation. -/
theorem sumValues_perm {l l' : List (Nat × ℚ)} (h : l.Perm l') :
    sumValues l = sumValues l' :=
  (h.map _).sum_eq

theorem creditorsOf_nonneg (b : List (Nat × ℚ)) : ∀ p ∈ creditorsOf b, 0 ≤ p.2 := by
  intro p hp
  have := List.of_mem_filter hp
  simp only [decide_eq_true_eq] at this
  exact this.le

theorem debtorsOf_nonneg (b : List (Nat × ℚ)) : ∀ p ∈ debtorsOf b, 0 ≤ p.2 := by
  intro p hp
  obtain ⟨q, hq, rfl⟩ := List.mem_map.mp hp
  have := List.of_mem_filter hq
  simp only [decide_eq_true_eq] at this
  simpa using (neg_pos.mpr this).le

/-- Total credits: the sum of the strictly positive balances. -/
def totalCredits (b : List (Nat × ℚ)) : ℚ := sumValues (creditorsOf b)

/-- Total debits: the sum of the absolute values of the strictly negative
balances. -/
def totalDebits (b : List (Nat × ℚ)) : ℚ := sumValues (debtorsOf b)

/-- Splitting a balance list into creditors and (negated) debtors preserves
each user's total: the zero entries contribute nothing. -/
theorem entrySum_split (b : List (Nat × ℚ)) (u : Nat) :
    entrySum (creditorsOf b) u - entrySum (debtorsOf b) u = entrySum b u := by
  induction b with
  | nil => simp [creditorsOf, debtorsOf, entrySum]
  | cons p t ih =>
    obtain ⟨k, v⟩ := p
    rcases lt_trichotomy v 0 with hv | hv | hv
    · have h1 : decide (0 < v) = false := decide_eq_false (not_lt.mpr hv.le)
      have h2 : decide (v < 0) = true := decide_eq_true hv
      simp only [creditorsOf, debtorsOf, List.filter_cons, h1, h2, if_true, if_false,
        Bool.false_eq_true, List.map_cons] at *
      rw [entrySum_cons, entrySum_cons]
      split <;> (rw [← ih]; ring)
    · have h1 : decide (0 < v) = false := decide_eq_false (by simp [hv])
      have h2 : decide (v < 0) = false := decide_eq_false (by simp [hv])
      simp only [creditorsOf, debtorsOf, List.filter_cons, h1, h2, if_false,
        Bool.false_eq_true] at *
      rw [entrySum_cons]
      split <;> (rw [← ih]; simp [hv])
    · have h1 : decide (0 < v) = true := decide_eq_true hv
      have h2 : decide (v < 0) = false := decide_eq_false (not_lt.mpr hv.le)
      simp only [creditorsOf, debtorsOf, List.filter_cons, h1, h2, if_true, if_false,
        Bool.false_eq_true] at *
      rw [entrySum_cons, entrySum_cons]
      split <;> (rw [← ih]; ring)

/-- Splitting a balance list into creditors and (negated) debtors preserves
the grand total. -/
theorem sumValues_split (b : List (Nat × ℚ)) :
    totalCredits b - totalDebits b = sumValues b := by
  induction b with
  | nil => simp [totalCredits, totalDebits, creditorsOf, debtorsOf, sumValues]
  | cons p t ih =>
    obtain ⟨k, v⟩ := p
    rcases lt_trichotomy v 0 with hv | hv | hv
    · have h1 : decide (0 < v) = false := decide_eq_false (not_lt.mpr hv.le)
      have h2 : decide (v < 0) = true := decide_eq_true hv
      simp only [totalCredits, totalDebits, creditorsOf, debtorsOf, List.filter_cons,
        h1, h2, if_true, if_false, Bool.false_eq_true, List.map_cons] at *
      rw [sumValues_cons, sumValues_cons]
      rw [← ih]; ring
    · have h1 : decide (0 < v) = false := decide_eq_false (by simp [hv])
      have h2 : decide (v < 0) = false := decide_eq_false (by simp [hv])
      simp only [totalCredits, totalDebits, creditorsOf, debtorsOf, List.filter_cons,
        h1, h2, if_false, Bool.false_eq_true] at *
      rw [sumValues_cons, ← ih, hv]; ring
    · have h1 : decide (0 < v) = true := decide_eq_true hv
      have h2 : decide (v < 0) = false := decide_eq_false (not_lt.mpr hv.le)
      simp only [totalCredits, totalDebits, creditorsOf, debtorsOf, List.filter_cons,
        h1, h2, if_true, if_false, Bool.false_eq_true] at *
      rw [sumValues_cons, sumValues_cons, ← ih]; ring

/-- **C10.** Dust behavior: for every balance list — zero-sum or not — the
amounts transferred by `minimize_transfers` sum to exactly
`min (total credits) (total debits)`: the smaller side is settled in full and
the dust on the other side is left untransferred. -/
theorem dust_total_transferred (balances : List (Nat × ℚ)) :
    sumAmounts (minimize_transfers balances)
      = min (totalCredits balances) (totalDebits balances) := by
  rw [minimize_transfers_eq]
  have pc : (sortDescByAmount (creditorsOf balances)).Perm (creditorsOf balances) :=
    List.perm_insertionSort _ _
  have pd : (sortDescByAmount (debtorsOf balances)).Perm (debtorsOf balances) :=
    List.perm_insertionSort _ _
  rw [greedyLoopFuel_sum _ _ _
    (fun p hp => creditorsOf_nonneg balances p (pc.mem_iff.mp hp))
    (fun p hp => debtorsOf_nonneg balances p (pd.mem_iff.mp hp))
    le_rfl]
  rw [sumValues_perm pc, sumValues_perm pd]
  rfl

/-- Applying one transfer so that balances settle: the payer's (negative)
balance is credited with the amount, the receiver's (positive) balance is
debited by it. -/
def applyTransfer (bal : Nat → ℚ) (t : Transfer) : Nat → ℚ :=
  fun u => bal u + (if t.from_user_id = u then t.amount else 0)
    - (if t.to_user_id = u then t.amount else 0)

/-- Applying a list of transfers in order. -/
def applyTransfers (bal : Nat → ℚ) (ts : List Transfer) : Nat → ℚ :=
  ts.foldl applyTransfer bal

/-- The application rule in the claim's own words: subtract the amount from
`from_user`'s balance and add it to `to_user`'s balance. -/
def applyTransferAsClaimed (bal : Nat → ℚ) (t : Transfer) : Nat → ℚ :=
  fun u => bal u - (if t.from_user_id = u then t.amount else 0)
    + (if t.to_user_id = u then t.amount else 0)

/-- Applying a list of transfers in order, with the claim's subtraction rule. -/
def applyTransfersAsClaimed (bal : Nat → ℚ) (ts : List Transfer) : Nat → ℚ :=
  ts.foldl applyTransferAsClaimed bal

theorem applyTransfers_eq (bal : Nat → ℚ) (ts : List Transfer) (u : Nat) :
    applyTransfers bal ts u = bal u + payTotal ts u - recvTotal ts u := by
  induction ts generalizing bal with
  | nil => simp [applyTransfers, payTotal, recvTotal]
  | cons t ts ih =>
    show applyTransfers (applyTransfer bal t) ts u = _
    rw [ih, payTotal_cons, recvTotal_cons]
    simp only [applyTransfer]
    ring

/-- The initial per-user balance function carried by a balance list. -/
def balanceOf (balances : List (Nat × ℚ)) : Nat → ℚ :=
  fun u => entrySum balances u

/-- **C2 (counterexample).** The claim's application rule — subtract from
`from_user`, add to `to_user` — does not return the balances to zero: on the
zero-sum balance list `[(0, 1), (1, -1)]` the engine produces the single
transfer `1 → 0 : 1`, and the claimed rule leaves user 0 with balance 2. -/
theorem transfer_correctness_as_claimed_fails :
    sumValues [((0 : Nat), (1 : ℚ)), (1, -1)] = 0 ∧
    applyTransfersAsClaimed (balanceOf [((0 : Nat), (1 : ℚ)), (1, -1)])
      (minimize_transfers [((0 : Nat), (1 : ℚ)), (1, -1)]) 0 = 2 := by
  constructor
  · norm_num [sumValues]
  · norm_num [minimize_transfers, sortDescByAmount, List.insertionSort,
      List.orderedInsert, greedyLoopFuel, min_def, applyTransfersAsClaimed,
      applyTransferAsClaimed, balanceOf, entrySum]

/-- **C2 (amended).** Transfer correctness: for every balance list summing to
exactly zero, applying every transfer produced by `minimize_transfers` —
crediting `from_user` and debiting `to_user` by the amount — yields a balance
of exactly zero for every user, with no rounding anywhere. -/
theorem transfer_correctness (balances : List (Nat × ℚ))
    (h : sumValues balances = 0) (u : Nat) :
    applyTransfers (balanceOf balances) (minimize_transfers balances) u = 0 := by
  rw [applyTransfers_eq, minimize_transfers_eq]
  have pc : (sortDescByAmount (creditorsOf balances)).Perm (creditorsOf balances) :=
    List.perm_insertionSort _ _
  have pd : (sortDescByAmount (debtorsOf balances)).Perm (debtorsOf balances) :=
    List.perm_insertionSort _ _
  have hsum : sumValues (sortDescByAmount (creditorsOf balances))
      = sumValues (sortDescByAmount (debtorsOf balances)) := by
    rw [sumValues_perm pc, sumValues_perm pd]
    have := sumValues_split balances
    rw [h] at this
    unfold totalCredits totalDebits at this
    linarith
  obtain ⟨h1, h2⟩ := greedyLoopFuel_entry
    ((sortDescByAmount (creditorsOf balances)).length
      + (sortDescByAmount (debtorsOf balances)).length)
    _ _
    (fun p hp => creditorsOf_nonneg balances p (pc.mem_iff.mp hp))
    (fun p hp => debtorsOf_nonneg balances p (pd.mem_iff.mp hp))
    hsum le_rfl u
  rw [h1, h2, entrySum_perm pc, entrySum_perm pd]
  have := entrySum_split balances u
  unfold balanceOf
  linarith

/-- Witness for C2 (amended) at the concrete zero-sum list `[(0,1),(1,-1)]`
and user 0. -/
theorem transfer_correctness_witness :
    sumValues [((0 : Nat), (1 : ℚ)), (1, -1)] = 0 ∧
    applyTransfers (balanceOf [((0 : Nat), (1 : ℚ)), (1, -1)])
      (minimize_transfers [((0 : Nat), (1 : ℚ)), (1, -1)]) 0 = 0 :=
  ⟨by norm_num [sumValues],
   transfer_correctness _ (by norm_num [sumValues]) 0⟩

theorem mem_map_fst_ifCons {uid : Nat} {a : ℚ} {l : List (Nat × ℚ)} {x : Nat}
    (h : x ∈ ((if a = 0 then l else (uid, a) :: l).map Prod.fst)) :
    x ∈ uid :: l.map Prod.fst := by
  split at h
  · exact List.mem_cons_of_mem _ h
  · simpa using h

/-- Every transfer emitted by the greedy loop has a strictly positive amount,
is directed to the id of some creditor entry, and from the id of some debtor
entry. -/
theorem greedyLoopFuel_mem (fuel : Nat) (cs ds : List (Nat × ℚ))
    (hc : ∀ p ∈ cs, 0 ≤ p.2) (hd : ∀ p ∈ ds, 0 ≤ p.2) :
    ∀ t ∈ greedyLoopFuel fuel cs ds,
      0 < t.amount ∧ t.to_user_id ∈ cs.map Prod.fst ∧
        t.from_user_id ∈ ds.map Prod.fst := by
  induction fuel generalizing cs ds with
  | zero =>
    match cs, ds with
    | [], ds => rw [greedyLoopFuel_nil_left]; intro t ht; simp at ht
    | c :: cs, [] => rw [greedyLoopFuel_nil_right]; intro t ht; simp at ht
    | c :: cs, d :: ds => intro t ht; simp [greedyLoopFuel] at ht
  | succ fuel ih =>
    match cs, ds with
    | [], ds => rw [greedyLoopFuel_nil_left]; intro t ht; simp at ht
    | c :: cs, [] => rw [greedyLoopFuel_nil_right]; intro t ht; simp at ht
    | (cid, ca) :: cs, (did, da) :: ds =>
      have hcacs : 0 ≤ ca := hc (cid, ca) (List.mem_cons_self _ _)
      have hdads : 0 ≤ da := hd (did, da) (List.mem_cons_self _ _)
      have hc' : ∀ p ∈ cs, 0 ≤ p.2 := fun p hp => hc p (List.mem_cons_of_mem _ hp)
      have hd' : ∀ p ∈ ds, 0 ≤ p.2 := fun p hp => hd p (List.mem_cons_of_mem _ hp)
      intro t ht
      simp only [greedyLoopFuel] at ht
      by_cases hca : ca = 0
      · rw [if_pos hca] at ht
        obtain ⟨h1, h2, h3⟩ := ih cs ((did, da) :: ds) hc' hd t ht
        exact ⟨h1, List.mem_cons_of_mem _ h2, h3⟩
      · rw [if_neg hca] at ht
        by_cases hda : da = 0
        · rw [if_pos hda] at ht
          obtain ⟨h1, h2, h3⟩ := ih ((cid, ca) :: cs) ds hc hd' t ht
          exact ⟨h1, h2, List.mem_cons_of_mem _ h3⟩
        · rw [if_neg hda] at ht
          rcases List.mem_cons.mp ht with rfl | ht
          · refine ⟨lt_min (lt_of_le_of_ne hcacs (Ne.symm hca))
              (lt_of_le_of_ne hdads (Ne.symm hda)), ?_, ?_⟩
            · simp
            · simp
          · obtain ⟨h1, h2, h3⟩ := ih _ _
              (greedy_branch_nonneg cid (ca - min ca da) cs hc'
                (sub_nonneg.mpr (min_le_left ca da)))
              (greedy_branch_nonneg did (da - min ca da) ds hd'
                (sub_nonneg.mpr (min_le_right ca da)))
              t ht
            refine ⟨h1, ?_, ?_⟩
            · simpa using mem_map_fst_ifCons h2
            · simpa using mem_map_fst_ifCons h3

/-- When the balance keys are distinct, a key determines its value. -/
theorem key_val_unique {b : List (Nat × ℚ)} (hnd : (b.map Prod.fst).Nodup)
    {u : Nat} {v w : ℚ} (h1 : (u, v) ∈ b) (h2 : (u, w) ∈ b) : v = w := by
  induction b with
  | nil => simp at h1
  | cons p t ih =>
    simp only [List.map_cons, List.nodup_cons] at hnd
    rcases List.mem_cons.mp h1 with e1 | m1 <;> rcases List.mem_cons.mp h2 with e2 | m2
    · rw [← e2] at e1; exact (Prod.mk.injEq _ _ _ _).mp e1 |>.2
    · exfalso
      apply hnd.1
      rw [← e1]
      show u ∈ List.map Prod.fst t
      exact List.mem_map_of_mem Prod.fst m2
    · exfalso
      apply hnd.1
      rw [← e2]
      show u ∈ List.map Prod.fst t
      exact List.mem_map_of_mem Prod.fst m1
    · exact ih hnd.2 m1 m2

theorem mem_fst_creditorsOf {b : List (Nat × ℚ)} {x : Nat}
    (h : x ∈ (creditorsOf b).map Prod.fst) : ∃ v, (x, v) ∈ b ∧ 0 < v := by
  obtain ⟨p, hp, rfl⟩ := List.mem_map.mp h
  have hm := List.mem_of_mem_filter hp
  have hv := List.of_mem_filter hp
  simp only [decide_eq_true_eq] at hv
  exact ⟨p.2, by simpa using hm, hv⟩

theorem mem_fst_debtorsOf {b : List (Nat × ℚ)} {x : Nat}
    (h : x ∈ (debtorsOf b).map Prod.fst) : ∃ v, (x, v) ∈ b ∧ v < 0 := by
  obtain ⟨p, hp, rfl⟩ := List.mem_map.mp h
  obtain ⟨q, hq, rfl⟩ := List.mem_map.mp hp
  have hm := List.mem_of_mem_filter hq
  have hv := List.of_mem_filter hq
  simp only [decide_eq_true_eq] at hv
  exact ⟨q.2, by simpa using hm, hv⟩

/-- **C9.** Transfer positivity and direction: when every user has one
balance entry, each transfer produced by `minimize_transfers` has a strictly
positive amount, goes from a user with strictly negative input balance to a
user with strictly positive input balance, never sends money from a user to
themselves, and never involves a user whose input balance is exactly zero. -/
theorem transfer_direction (balances : List (Nat × ℚ))
    (hnd : (balances.map Prod.fst).Nodup) :
    ∀ t ∈ minimize_transfers balances,
      0 < t.amount ∧
      (∃ v, (t.from_user_id, v) ∈ balances ∧ v < 0) ∧
      (∃ v, (t.to_user_id, v) ∈ balances ∧ 0 < v) ∧
      t.from_user_id ≠ t.to_user_id ∧
      (∀ u v, (u, v) ∈ balances → v = 0 →
        t.from_user_id ≠ u ∧ t.to_user_id ≠ u) := by
  intro t ht
  rw [minimize_transfers_eq] at ht
  have pc : (sortDescByAmount (creditorsOf balances)).Perm (creditorsOf balances) :=
    List.perm_insertionSort _ _
  have pd : (sortDescByAmount (debtorsOf balances)).Perm (debtorsOf balances) :=
    List.perm_insertionSort _ _
  obtain ⟨hpos, hto, hfrom⟩ := greedyLoopFuel_mem _ _ _
    (fun p hp => creditorsOf_nonneg balances p (pc.mem_iff.mp hp))
    (fun p hp => debtorsOf_nonneg balances p (pd.mem_iff.mp hp)) t ht
  obtain ⟨vp, hvp, hvppos⟩ := mem_fst_creditorsOf ((pc.map Prod.fst).mem_iff.mp hto)
  obtain ⟨vn, hvn, hvnneg⟩ := mem_fst_debtorsOf ((pd.map Prod.fst).mem_iff.mp hfrom)
  refine ⟨hpos, ⟨vn, hvn, hvnneg⟩, ⟨vp, hvp, hvppos⟩, ?_, ?_⟩
  · intro he
    rw [he] at hvn
    have := key_val_unique hnd hvn hvp
    linarith
  · intro u v huv hv0
    constructor
    · intro he
      rw [he] at hvn
      have := key_val_unique hnd hvn huv
      rw [hv0] at this
      linarith
    · intro he
      rw [he] at hvp
      have := key_val_unique hnd hvp huv
      rw [hv0] at this
      linarith

/-- Witness for C9 on the balance list `[(5, 2), (7, -2)]`, whose single
transfer is `7 → 5 : 2`. -/
theorem transfer_direction_witness :
    0 < (Transfer.mk 7 5 2).amount ∧
    (∃ v, ((Transfer.mk 7 5 2).from_user_id, v) ∈ [((5 : Nat), (2 : ℚ)), (7, -2)] ∧ v < 0) ∧
    (∃ v, ((Transfer.mk 7 5 2).to_user_id, v) ∈ [((5 : Nat), (2 : ℚ)), (7, -2)] ∧ 0 < v) ∧
    (Transfer.mk 7 5 2).from_user_id ≠ (Transfer.mk 7 5 2).to_user_id ∧
    (∀ u v, (u, v) ∈ [((5 : Nat), (2 : ℚ)), (7, -2)] → v = 0 →
      (Transfer.mk 7 5 2).from_user_id ≠ u ∧ (Transfer.mk 7 5 2).to_user_id ≠ u) :=
  transfer_direction [((5 : Nat), (2 : ℚ)), (7, -2)] (by simp)
    (Transfer.mk 7 5 2)
    (by
      have hmt : minimize_transfers [((5 : Nat), (2 : ℚ)), (7, -2)]
          = [Transfer.mk 7 5 2] := by
        norm_num [minimize_transfers, sortDescByAmount, List.insertionSort,
          List.orderedInsert, greedyLoopFuel, min_def]
      rw [hmt]
      exact List.mem_singleton.mpr rfl)

/-- Whether an expense mentions user `u` as payer or participant. -/
def appears (e : Expense) (u : Nat) : Bool :=
  (e.payer_id == u) || e.participants.any (fun p => p.user_id == u)

/-- The net contribution of one expense to user `u`'s balance: the full
amount if `u` is the payer, minus every share row of `u`. -/
def contribution (e : Expense) (u : Nat) : ℚ :=
  (if e.payer_id = u then e.amount_base else 0)
    - ((e.participants.filter (fun p => p.user_id == u)).map
        ExpenseParticipant.share_amount_base).sum

/-- The total contribution of a ledger to user `u`'s balance. -/
def contribTotal (es : List Expense) (u : Nat) : ℚ :=
  (es.map (fun e => contribution e u)).sum

theorem lookup_dictAdd (nb : List (Nat × ℚ)) (k u : Nat) (amt : ℚ) :
    (dictAdd nb k amt).lookup u
      = if u = k then some (((nb.lookup u).getD 0) + amt) else nb.lookup u := by
  induction nb with
  | nil =>
    by_cases h : u = k
    · simp [dictAdd, List.lookup, h]
    · simp [dictAdd, List.lookup, h, beq_eq_false_iff_ne.mpr h]
  | cons p t ih =>
    obtain ⟨k', v⟩ := p
    by_cases h1 : k' = k
    · subst h1
      by_cases h2 : u = k'
      · subst h2
        simp [dictAdd, List.lookup]
      · simp [dictAdd, List.lookup, h2, beq_eq_false_iff_ne.mpr h2]
    · by_cases h2 : u = k'
      · have hne : ¬ u = k := by rw [h2]; exact h1
        simp [dictAdd, if_neg h1, List.lookup, h2, hne]
      · simp only [dictAdd, if_neg h1, List.lookup, beq_eq_false_iff_ne.mpr h2]
        rw [ih]

theorem filter_user_eq_nil {l : List ExpenseParticipant} {u : Nat}
    (h : ¬ l.any (fun p => p.user_id == u) = true) :
    l.filter (fun p => p.user_id == u) = [] := by
  rw [List.filter_eq_nil_iff]
  intro a ha hcontra
  exact h (List.any_eq_true.mpr ⟨a, ha, hcontra⟩)

theorem lookup_shareFold (l : List ExpenseParticipant) (nb : List (Nat × ℚ)) (u : Nat) :
    (l.foldl (fun acc p => dictAdd acc p.user_id (-p.share_amount_base)) nb).lookup u
      = if l.any (fun p => p.user_id == u)
        then some (((nb.lookup u).getD 0)
          - ((l.filter (fun p => p.user_id == u)).map
              ExpenseParticipant.share_amount_base).sum)
        else nb.lookup u := by
  induction l generalizing nb with
  | nil => simp
  | cons p t ih =>
    simp only [List.foldl_cons]
    rw [ih]
    by_cases hp : p.user_id = u
    · have hb : (p.user_id == u) = true := beq_iff_eq.mpr hp
      simp only [List.any_cons, hb, Bool.true_or, if_true, List.filter_cons,
        List.map_cons, List.sum_cons]
      by_cases ht : t.any (fun p => p.user_id == u) = true
      · rw [if_pos ht, lookup_dictAdd, if_pos hp.symm]
        simp only [Option.getD_some]
        congr 1
        ring
      · rw [if_neg ht, lookup_dictAdd, if_pos hp.symm, filter_user_eq_nil ht]
        simp only [List.map_nil, List.sum_nil]
        congr 1
        ring
    · have hb : (p.user_id == u) = false := beq_eq_false_iff_ne.mpr hp
      simp only [List.any_cons, hb, Bool.false_or, List.filter_cons,
        Bool.false_eq_true, if_false]
      have hd := lookup_dictAdd nb p.user_id u (-p.share_amount_base)
      rw [if_neg (fun h => hp h.symm)] at hd
      rw [hd]

theorem contribution_eq_zero {e : Expense} {u : Nat} (h : ¬ appears e u = true) :
    contribution e u = 0 := by
  unfold appears at h
  unfold contribution
  simp only [Bool.or_eq_true, not_or] at h
  obtain ⟨h1, h2⟩ := h
  rw [if_neg (fun hc => h1 (beq_iff_eq.mpr hc)), filter_user_eq_nil h2]
  simp

theorem contribTotal_eq_zero {t : List Expense} {u : Nat}
    (h : ¬ t.any (fun e => appears e u) = true) : contribTotal t u = 0 := by
  unfold contribTotal
  refine List.sum_eq_zero ?_
  intro x hx
  obtain ⟨e, he, rfl⟩ := List.mem_map.mp hx
  refine contribution_eq_zero ?_
  intro hc
  exact h (List.any_eq_true.mpr ⟨e, he, hc⟩)

theorem lookup_processExpense (nb : List (Nat × ℚ)) (e : Expense) (u : Nat) :
    (processExpense nb e).lookup u
      = if appears e u then some (((nb.lookup u).getD 0) + contribution e u)
        else nb.lookup u := by
  unfold processExpense appears contribution
  rw [lookup_shareFold, lookup_dictAdd]
  by_cases hpay : e.payer_id = u
  · have hb : (e.payer_id == u) = true := beq_iff_eq.mpr hpay
    simp only [hb, Bool.true_or, if_true, if_pos hpay.symm, if_pos hpay, Option.getD_some]
    by_cases hany : e.participants.any (fun p => p.user_id == u) = true
    · rw [if_pos hany]
      congr 1
      ring
    · rw [if_neg hany, filter_user_eq_nil hany]
      simp only [List.map_nil, List.sum_nil]
      congr 1
      ring
  · have hb : (e.payer_id == u) = false := beq_eq_false_iff_ne.mpr hpay
    simp only [hb, Bool.false_or, if_neg (fun h => hpay (h : e.payer_id = u)),
      if_neg (fun h => hpay ((h : u = e.payer_id).symm))]
    by_cases hany : e.participants.any (fun p => p.user_id == u) = true
    · rw [if_pos hany, if_pos hany]
      congr 1
      ring
    · rw [if_neg hany, if_neg hany]

theorem lookup_netBalances_aux (es : List Expense) (nb : List (Nat × ℚ)) (u : Nat) :
    (es.foldl processExpense nb).lookup u
      = if es.any (fun e => appears e u)
        then some (((nb.lookup u).getD 0) + contribTotal es u)
        else nb.lookup u := by
  induction es generalizing nb with
  | nil => simp [contribTotal]
  | cons e t ih =>
    simp only [List.foldl_cons]
    rw [ih, lookup_processExpense]
    simp only [contribTotal, List.map_cons, List.sum_cons, List.any_cons]
    by_cases he : appears e u = true
    · simp only [he, Bool.true_or, if_true, Option.getD_some]
      by_cases ht : t.any (fun e => appears e u) = true
      · rw [if_pos ht]
        congr 1
        ring
      · rw [if_neg ht]
        have hz : (List.map (fun e => contribution e u) t).sum = 0 :=
          contribTotal_eq_zero ht
        rw [hz]
        congr 1
        ring
    · have hb : appears e u = false := Bool.eq_false_iff.mpr he
      simp only [hb, Bool.false_or, Bool.false_eq_true, if_false]
      by_cases ht : t.any (fun e => appears e u) = true
      · rw [if_pos ht, if_pos ht, contribution_eq_zero he]
        congr 1
        ring
      · rw [if_neg ht, if_neg ht]

theorem lookup_netBalances (es : List Expense) (u : Nat) :
    (netBalances es).lookup u
      = if es.any (fun e => appears e u) then some (contribTotal es u) else none := by
  unfold netBalances
  rw [lookup_netBalances_aux]
  split <;> simp [List.lookup]

/-- Two expenses are the same up to the order of their participant rows. -/
def ExpensePerm (e e' : Expense) : Prop :=
  e.payer_id = e'.payer_id ∧ e.amount_base = e'.amount_base ∧
    e.participants.Perm e'.participants

/-- Two ledgers are the same up to reordering the expenses and the shares
inside each expense. -/
def LedgerPerm (es es' : List Expense) : Prop :=
  ∃ mid, es.Perm mid ∧ List.Forall₂ ExpensePerm mid es'

theorem ExpensePerm.appears_eq {e e' : Expense} (h : ExpensePerm e e') (u : Nat) :
    appears e u = appears e' u := by
  obtain ⟨h1, h2, h3⟩ := h
  unfold appears
  rw [h1]
  congr 1
  rw [Bool.eq_iff_iff]
  simp only [List.any_eq_true]
  exact ⟨fun ⟨x, hx, hp⟩ => ⟨x, h3.mem_iff.mp hx, hp⟩,
         fun ⟨x, hx, hp⟩ => ⟨x, h3.mem_iff.mpr hx, hp⟩⟩

theorem ExpensePerm.contribution_eq {e e' : Expense} (h : ExpensePerm e e') (u : Nat) :
    contribution e u = contribution e' u := by
  obtain ⟨h1, h2, h3⟩ := h
  unfold contribution
  rw [h1, h2, ((h3.filter _).map _).sum_eq]

theorem forall₂_any_eq {l l' : List Expense} (h : List.Forall₂ ExpensePerm l l')
    (u : Nat) :
    l.any (fun e => appears e u) = l'.any (fun e => appears e u) := by
  induction h with
  | nil => rfl
  | cons hx _ ih => simp only [List.any_cons, hx.appears_eq u, ih]

theorem forall₂_contribTotal_eq {l l' : List Expense}
    (h : List.Forall₂ ExpensePerm l l') (u : Nat) :
    contribTotal l u = contribTotal l' u := by
  induction h with
  | nil => rfl
  | cons hx _ ih =>
    unfold contribTotal at *
    simp only [List.map_cons, List.sum_cons, hx.contribution_eq u, ih]

theorem perm_any_eq {l l' : List Expense} (h : l.Perm l') (u : Nat) :
    l.any (fun e => appears e u) = l'.any (fun e => appears e u) := by
  rw [Bool.eq_iff_iff]
  simp only [List.any_eq_true]
  exact ⟨fun ⟨x, hx, hp⟩ => ⟨x, h.mem_iff.mp hx, hp⟩,
         fun ⟨x, hx, hp⟩ => ⟨x, h.mem_iff.mpr hx, hp⟩⟩

theorem perm_contribTotal_eq {l l' : List Expense} (h : l.Perm l') (u : Nat) :
    contribTotal l u = contribTotal l' u := (h.map _).sum_eq

/-- **C7.** Order-independence of the aggregation: permuting the expenses of
a ledger and the shares within each expense leaves the net-balance mapping —
read as a function from user id to optional balance — unchanged. -/
theorem aggregation_order_independent (es es' : List Expense)
    (h : LedgerPerm es es') (u : Nat) :
    (netBalances es).lookup u = (netBalances es').lookup u := by
  obtain ⟨mid, hp, hf⟩ := h
  rw [lookup_netBalances, lookup_netBalances,
    perm_any_eq hp u, forall₂_any_eq hf u,
    perm_contribTotal_eq hp u, forall₂_contribTotal_eq hf u]

/-- The scenario ledger with the two expenses swapped and the shares inside
each expense reordered. -/
def scenarioLedgerPermuted : List Expense :=
  [Expense.mk 2 150 [⟨3, 75⟩, ⟨2, 75⟩],
   Expense.mk 1 300 [⟨2, 100⟩, ⟨1, 100⟩, ⟨3, 100⟩]]

/-- Witness for C7: the scenario ledger and its permuted version agree on
user 2's net balance. -/
theorem aggregation_order_independent_witness :
    LedgerPerm scenarioLedger scenarioLedgerPermuted ∧
    (netBalances scenarioLedger).lookup 2
      = (netBalances scenarioLedgerPermuted).lookup 2 := by
  have hp : LedgerPerm scenarioLedger scenarioLedgerPermuted := by
    refine ⟨[Expense.mk 2 150 [⟨2, 75⟩, ⟨3, 75⟩],
             Expense.mk 1 300 [⟨1, 100⟩, ⟨2, 100⟩, ⟨3, 100⟩]], ?_, ?_⟩
    · exact List.Perm.swap _ _ _
    · refine List.Forall₂.cons ⟨rfl, rfl, ?_⟩
        (List.Forall₂.cons ⟨rfl, rfl, ?_⟩ List.Forall₂.nil)
      · exact List.Perm.swap _ _ _
      · exact List.Perm.swap _ _ _
  exact ⟨hp, aggregation_order_independent _ _ hp 2⟩

/-- The `TripStatus` enum of `models/trip.py`. -/
inductive TripStatus
  | upcoming
  | ongoing
  | finished
  | settled
deriving DecidableEq, Repr

/-- The fields of a `Trip` row that settlement touches. -/
structure TripRow where
  id : Nat
  status : TripStatus
  is_settled : Bool
deriving DecidableEq, Repr

/-- A `SettlementResult` row: its trip id and calculation data. -/
structure SettlementRow where
  trip_id : Nat
  data : CalcData
deriving DecidableEq, Repr

/-- Lines 100-111 of `calculate_settlement`: delete every prior
`SettlementResult` row of the trip, then insert the newly computed one. -/
def replaceSettlementResult (store : List SettlementRow) (tid : Nat)
    (d : CalcData) : List SettlementRow :=
  store.filter (fun r => !(r.trip_id == tid)) ++ [⟨tid, d⟩]

/-- Lines 113-118 of `calculate_settlement`: set `is_settled = True` and
`status = TripStatus.SETTLED` on the trip row, when it exists. -/
def markTripSettled (trips : List TripRow) (tid : Nat) : List TripRow :=
  trips.map (fun t =>
    if t.id == tid then { t with is_settled := true, status := TripStatus.settled }
    else t)

theorem filter_replaceSettlementResult (store : List SettlementRow) (tid : Nat)
    (d : CalcData) :
    (replaceSettlementResult store tid d).filter (fun r => r.trip_id == tid)
      = [⟨tid, d⟩] := by
  unfold replaceSettlementResult
  rw [List.filter_append]
  have hnil : (store.filter (fun r => !(r.trip_id == tid))).filter
      (fun r => r.trip_id == tid) = [] := by
    induction store with
    | nil => rfl
    | cons r t ih => by_cases h : r.trip_id = tid <;> simp [List.filter_cons, h, ih]
  rw [hnil]
  simp [List.filter_cons]

/-- **C6.** Replace-on-write and settled flag: after the settlement write,
the store holds exactly one `SettlementResult` row for the trip (the new
one); writing twice leaves exactly one row, the second; and every trip row
with the settled trip's id ends with `is_settled = true` and status
`SETTLED`. -/
theorem replace_on_write (store : List SettlementRow) (trips : List TripRow)
    (tid : Nat) (d d' : CalcData) :
    (replaceSettlementResult store tid d).filter (fun r => r.trip_id == tid)
      = [⟨tid, d⟩] ∧
    (replaceSettlementResult (replaceSettlementResult store tid d) tid d').filter
      (fun r => r.trip_id == tid) = [⟨tid, d'⟩] ∧
    (∀ t ∈ markTripSettled trips tid, t.id = tid →
      t.is_settled = true ∧ t.status = TripStatus.settled) := by
  refine ⟨filter_replaceSettlementResult store tid d,
    filter_replaceSettlementResult _ tid d', ?_⟩
  intro t ht htid
  unfold markTripSettled at ht
  obtain ⟨t0, ht0, hmap⟩ := List.mem_map.mp ht
  by_cases h : t0.id = tid
  · rw [if_pos (beq_iff_eq.mpr h)] at hmap
    rw [← hmap]
    exact ⟨rfl, rfl⟩
  · rw [if_neg (by simpa using h)] at hmap
    rw [← hmap] at htid
    exact absurd htid h

/-- Witness for C6 on a one-row store, a second write, and a one-trip list. -/
theorem replace_on_write_witness :
    ((replaceSettlementResult [⟨9, ⟨[], [], 5, 1⟩⟩] 9 ⟨[], [], 0, 0⟩).filter
        (fun r => r.trip_id == 9) = [⟨9, ⟨[], [], 0, 0⟩⟩]) ∧
    ((replaceSettlementResult
        (replaceSettlementResult [⟨9, ⟨[], [], 5, 1⟩⟩] 9 ⟨[], [], 0, 0⟩) 9
        ⟨[], [], 7, 2⟩).filter (fun r => r.trip_id == 9) = [⟨9, ⟨[], [], 7, 2⟩⟩]) ∧
    (∀ t ∈ markTripSettled [⟨9, TripStatus.ongoing, false⟩] 9, t.id = 9 →
      t.is_settled = true ∧ t.status = TripStatus.settled) :=
  replace_on_write [⟨9, ⟨[], [], 5, 1⟩⟩] [⟨9, TripStatus.ongoing, false⟩] 9
    ⟨[], [], 0, 0⟩ ⟨[], [], 7, 2⟩

/-- If some id of the balances is absent from `user_map`, the
`"net_balances"` comprehension raises. -/
theorem lookupAll_error (userMap : List (Nat × String)) (nb : List (Nat × ℚ))
    (u : Nat) (hmem : u ∈ nb.map Prod.fst) (hnone : userMap.lookup u = none) :
    ∃ v, lookupAll userMap nb = .error v := by
  induction nb with
  | nil => simp at hmem
  | cons p t ih =>
    obtain ⟨k, bal⟩ := p
    simp only [List.map_cons, List.mem_cons] at hmem
    unfold lookupAll
    cases hk : userMap.lookup k with
    | none => exact ⟨k, rfl⟩
    | some name =>
      rcases hmem with rfl | hmem
      · rw [hnone] at hk
        cases hk
      · obtain ⟨v, hv⟩ := ih hmem
        rw [hv]
        exact ⟨v, rfl⟩

/-- **C8.** Missing username: if any user id appearing in the net balances has
no resolvable username, `calculate_settlement`'s result assembly surfaces a
lookup error (`KeyError` from `user_map[uid]` in the `"net_balances"`
comprehension) and produces no result at all — so no placeholder username is
fabricated in the balances, the transfer entries, or the summary, which is
built only from a successfully assembled `calculation_data`. -/
theorem missing_username_lookup_error (expenses : List Expense)
    (resolver : Nat → Option String) (u : Nat)
    (hmem : u ∈ (netBalances expenses).map Prod.fst)
    (hmiss : resolver u = none) :
    ∃ v, calculate_settlement_core expenses resolver = .error v := by
  have husermap : (buildUserMap resolver (netBalances expenses)).lookup u = none := by
    generalize netBalances expenses = nb
    induction nb with
    | nil => rfl
    | cons p t ih =>
      unfold buildUserMap at *
      simp only [List.filterMap_cons]
      cases hr : resolver p.1 with
      | none => simpa using ih
      | some name =>
        simp only [Option.map_some']
        by_cases hu : u = p.1
        · rw [hu] at hmiss
          rw [hmiss] at hr
          cases hr
        · simpa [List.lookup, beq_eq_false_iff_ne.mpr hu] using ih
  obtain ⟨v, hv⟩ := lookupAll_error (buildUserMap resolver (netBalances expenses))
    (netBalances expenses) u hmem husermap
  refine ⟨v, ?_⟩
  unfold calculate_settlement_core buildCalculationData
  rw [hv]

/-- Witness for C8: a single self-paid expense of user 4 with a resolver that
knows nobody. -/
theorem missing_username_lookup_error_witness :
    (4 ∈ (netBalances [Expense.mk 4 10 [⟨4, 10⟩]]).map Prod.fst) ∧
    ((fun _ : Nat => (none : Option String)) 4 = none) ∧
    (∃ v, calculate_settlement_core [Expense.mk 4 10 [⟨4, 10⟩]]
      (fun _ => none) = .error v) :=
  ⟨by norm_num [netBalances, processExpense, dictAdd], rfl,
   missing_username_lookup_error [Expense.mk 4 10 [⟨4, 10⟩]] (fun _ => none) 4
     (by norm_num [netBalances, processExpense, dictAdd]) rfl⟩

end CheckMate
